import Mathlib

/-!
Verification of the late-require-capability pass
(`source/slang/slang-ir-late-require-capability.cpp`).

The pass itself (context structure, `checkCapability`, `processFunc`,
`processModule`, `processLateRequireCapabilityInsts`) is embedded directly
from the source. The capability-set algebra (`CapabilitySet::join`,
`atLeastOneSetImpliedInOther`, `getAtomSets`,
`CapabilityAtomSet::calcSubtract`) and the entry-point attribution map
builder (`buildEntryPointReferenceGraph`) live outside the given source and
are modelled from the spec, as noted on each definition.

Machine-level conventions of the embedding:
* pointers that the pass dereferences without a null check are `Option`s,
  and a null dereference makes the whole run return `none`;
* the diagnostic sink is a list of emitted diagnostics threaded through the
  state;
* two instrumentation counters (`checkerInvocations`, `markersScanned`)
  record how often the checker is entered and how many markers the scan
  collects; they are write-only and do not influence control flow.
-/

namespace Slang

/-- A capability atom: an opaque platform feature/extension/version token.
Modelled from the spec: atoms are opaque enumerable tokens, so we use `Nat`. -/
abbrev CapabilityAtom := Nat

/-- Modelled from the spec: an unordered set of atoms with unique
membership, supporting union and asymmetric subtraction. -/
abbrev CapabilityAtomSet := Finset Nat

/-- Modelled from the spec: `subtract(A,B) = A \ B`, the elements of `A`
absent from `B` (the external `CapabilityAtomSet::calcSubtract`). -/
def CapabilityAtomSet.calcSubtract (a b : CapabilityAtomSet) : CapabilityAtomSet :=
  a \ b

/-- Modelled from the spec: a capability set is an OR-of-AND value, a list
of "alternatives", each an atom set; the first alternative is the stable
primary representative used for diagnostics. -/
structure CapabilitySet where
  alternatives : List CapabilityAtomSet
deriving DecidableEq

/-- Return flags of the implication query, mirroring
`CapabilitySet::ImpliesReturnFlags` as used by the pass. -/
inductive ImpliesReturnFlags where
  | Implied
  | NotImplied
deriving DecidableEq

/-- Modelled from the spec: `join` folds the other set's guarantees into
every alternative of the receiver (union of atom sets, across all pairs of
alternatives); joining with a set that has no alternatives contributes no
guarantees and leaves the receiver unchanged. -/
def CapabilitySet.join (s other : CapabilitySet) : CapabilitySet :=
  if other.alternatives.isEmpty then s
  else ⟨(s.alternatives.map fun a => other.alternatives.map fun b => a ∪ b).flatten⟩

/-- Modelled from the spec: existential-existential implication — `Implied`
iff some alternative of the receiver is a superset of some alternative of
`required` (the external `CapabilitySet::atLeastOneSetImpliedInOther`). -/
def CapabilitySet.atLeastOneSetImpliedInOther (s required : CapabilitySet) :
    ImpliesReturnFlags :=
  if s.alternatives.any fun a => required.alternatives.any fun r => decide (r ⊆ a) then
    ImpliesReturnFlags.Implied
  else
    ImpliesReturnFlags.NotImplied

/-- Modelled from the spec: `getAtomSets` exposes the primary (first)
alternative when one exists; the pass dereferences it only after checking
for presence. -/
def CapabilitySet.getAtomSets (s : CapabilitySet) : Option CapabilityAtomSet :=
  s.alternatives.head?

/-- An `IRCapabilitySet` instruction: carries the declared capability set
(`getCaps`) and its source location (`sourceLoc`). -/
structure IRCapabilitySetInst where
  caps : CapabilitySet
  sourceLoc : Nat
deriving DecidableEq

/-- The operand of a marker, as a raw IR instruction: it may or may not
actually be an `IRCapabilitySet` instruction. -/
inductive IRInst where
  | capabilitySet (inst : IRCapabilitySetInst)
  | otherInst
deriving DecidableEq

/-- The `as<IRCapabilitySet>` downcast: `some` when the instruction is an
`IRCapabilitySet`, `none` (null pointer) otherwise. -/
def asCapabilitySet : IRInst → Option IRCapabilitySetInst
  | IRInst.capabilitySet inst => some inst
  | IRInst.otherInst => none

/-- An `IRLateRequireCapability` marker: its single modelled operand is the
result of `getCapabilitySet()`. -/
structure IRLateRequireCapabilityInst where
  capabilitySetOperand : IRInst
deriving DecidableEq

/-- A stage profile, as consumed by the pass: `capabilityName` is the stage
capability baseline that `profile.getCapabilityName()` names (modelled from
the spec as a capability set). -/
structure Profile where
  capabilityName : CapabilitySet
deriving DecidableEq

/-- A function node as the pass sees entry points: an identity and the
optional `IREntryPointDecoration` payload (its `Profile`);
`findDecoration<IREntryPointDecoration>` is the field access. -/
structure IRFunc where
  id : Nat
  entryPointDecoration : Option Profile
deriving DecidableEq

/-- An ordinary instruction inside a block: either a late-require-capability
marker or anything else. -/
inductive Inst where
  | lateRequireCapability (m : IRLateRequireCapabilityInst)
  | other
deriving DecidableEq

/-- Whether an ordinary instruction is a marker (`as<IRLateRequireCapability>`
succeeding). -/
def Inst.isLateRequireCapability : Inst → Bool
  | Inst.lateRequireCapability _ => true
  | Inst.other => false

/-- A basic block: its ordinary instruction list (`getOrdinaryInsts`). -/
structure IRBlock where
  ordinaryInsts : List Inst
deriving DecidableEq

/-- A function definition as scanned by `processFunc`: identity (shared with
`IRFunc`), entry-point decoration, and the block list (`getBlocks`). -/
structure IRFuncDef where
  id : Nat
  entryPointDecoration : Option Profile
  blocks : List IRBlock
deriving DecidableEq

/-- A top-level child of the module instruction: `as<IRFunc>` succeeds on
`funcInst` children and fails on the rest. -/
inductive ModuleChild where
  | funcInst (f : IRFuncDef)
  | otherChild
deriving DecidableEq

/-- The module: the ordered children of its module instruction. -/
structure IRModule where
  children : List ModuleChild
deriving DecidableEq

/-- One diagnostic written to the sink. `profileImplicitlyUpgraded` covers
both wordings chosen by `maybeDiagnoseWarningOrError` (the `restrictive`
flag selects between `Diagnostics::profileImplicitlyUpgraded` and
`Diagnostics::profileImplicitlyUpgradedRestrictive`); `seeCallOfFunc` is
the secondary note at the capability set's source location. -/
inductive Diagnostic where
  | profileImplicitlyUpgraded (entryId : Nat) (profileName : String)
      (missingAtoms : CapabilityAtomSet) (restrictive : Bool)
  | seeCallOfFunc (loc : Nat) (funcName : String)
deriving DecidableEq

/-- `SlangResult` restricted to the two values the pass produces. -/
inductive SlangResult where
  | ok
  | fail
deriving DecidableEq

/-- The mutable portion of `ProcessLateRequireCapabilityInstsContext`:
`targetCaps` is the stored `m_targetCaps`, `status` is `m_status`,
`diagnostics` is the sink's transcript, and the two counters instrument the
run (they never influence behaviour). `restrictiveCapabilityCheck` and
`profileName` stand for the option-set queries
`getBoolOption(RestrictiveCapabilityCheck)` and `getProfile().getName()`. -/
structure Context where
  targetCaps : CapabilitySet
  restrictiveCapabilityCheck : Bool
  profileName : String
  status : SlangResult
  diagnostics : List Diagnostic
  checkerInvocations : Nat
  markersScanned : Nat
deriving DecidableEq

/-- The attribution map `m_mapInstToReferencingEntryPoints` restricted to
function keys, modelled as an association list from function id to the
entry points that reach it. Modelled from the spec: the builder
(`buildEntryPointReferenceGraph`) is an external collaborator, so the map
is taken as an arbitrary input. -/
abbrev AttributionMap := List (Nat × List IRFunc)

/-- `tryGetValue` on the attribution map. -/
def lookupEntryPoints (attrMap : AttributionMap) (funcId : Nat) :
    Option (List IRFunc) :=
  (attrMap.find? fun p => p.1 == funcId).map Prod.snd

/-- `ProcessLateRequireCapabilityInstsContext::checkCapability`.
The `capSet` argument is the (possibly null) `IRCapabilitySet*`; the body
dereferences it without a null check (`capSet->getCaps()`), which the
embedding renders as returning `none`. Otherwise: copy the stored target
caps into a local, join the stage baseline into the local copy, return
early when the requirement is implied; else join the stage baseline into
the required set, diff the primary alternatives, emit the two diagnostics,
and fail only under the restrictive option. -/
def checkCapability (ctx : Context) (entry : IRFunc) (profile : Profile)
    (capSet : Option IRCapabilitySetInst) : Option Context :=
  match capSet with
  | none => none
  | some capInst =>
    let ctx := { ctx with checkerInvocations := ctx.checkerInvocations + 1 }
    let targetCaps := ctx.targetCaps
    let stageCapabilitySet := profile.capabilityName
    let required := capInst.caps
    let targetCaps := targetCaps.join stageCapabilitySet
    if targetCaps.atLeastOneSetImpliedInOther required = ImpliesReturnFlags.Implied then
      some ctx
    else
      let required := required.join stageCapabilitySet
      let addedAtoms : CapabilityAtomSet :=
        match targetCaps.getAtomSets with
        | some stageCapSet =>
          match required.getAtomSets with
          | some requiredSet => CapabilityAtomSet.calcSubtract requiredSet stageCapSet
          | none => ∅
        | none => ∅
      let ctx := { ctx with
        diagnostics := ctx.diagnostics ++
          [Diagnostic.profileImplicitlyUpgraded entry.id ctx.profileName addedAtoms
             ctx.restrictiveCapabilityCheck,
           Diagnostic.seeCallOfFunc capInst.sourceLoc "__requireCapability()"] }
      if ctx.restrictiveCapabilityCheck then
        some { ctx with status := SlangResult.fail }
      else
        some ctx

/-- The inner entry-point loop of `processFunc`: for each attributed entry
point that still carries its entry-point decoration, downcast the marker's
operand and invoke the checker; undecorated entry points are skipped. -/
def checkEntryPoints (ctx : Context) (eps : List IRFunc) (capOp : IRInst) :
    Option Context :=
  match eps with
  | [] => some ctx
  | e :: rest =>
    match e.entryPointDecoration with
    | some profile =>
      match checkCapability ctx e profile (asCapabilitySet capOp) with
      | none => none
      | some ctx' => checkEntryPoints ctx' rest capOp
    | none => checkEntryPoints ctx rest capOp

/-- The per-instruction scan of one block: each marker is collected
(`markersScanned` mirrors `instsToRemove.add`), the owning function's
attribution entry is consulted, and when present the entry-point loop runs. -/
def scanInsts (ctx : Context) (attr : Option (List IRFunc)) (insts : List Inst) :
    Option Context :=
  match insts with
  | [] => some ctx
  | Inst.lateRequireCapability m :: rest =>
    let ctx := { ctx with markersScanned := ctx.markersScanned + 1 }
    match attr with
    | some eps =>
      match checkEntryPoints ctx eps m.capabilitySetOperand with
      | none => none
      | some ctx' => scanInsts ctx' attr rest
    | none => scanInsts ctx attr rest
  | Inst.other :: rest => scanInsts ctx attr rest

/-- The block loop of `processFunc`. -/
def scanBlocks (ctx : Context) (attr : Option (List IRFunc)) (blocks : List IRBlock) :
    Option Context :=
  match blocks with
  | [] => some ctx
  | b :: rest =>
    match scanInsts ctx attr b.ordinaryInsts with
    | none => none
    | some ctx' => scanBlocks ctx' attr rest

/-- The removal phase of `processFunc`: every collected marker is removed
and deallocated (`removeAndDeallocate`), i.e. every marker instruction is
dropped from every block of the function. -/
def removeMarkers (f : IRFuncDef) : IRFuncDef :=
  { f with blocks := f.blocks.map fun b =>
      { b with ordinaryInsts := b.ordinaryInsts.filter fun i =>
          ! i.isLateRequireCapability } }

/-- `ProcessLateRequireCapabilityInstsContext::processFunc`: scan the
function's blocks, then remove the collected markers before returning. -/
def processFunc (ctx : Context) (attrMap : AttributionMap) (f : IRFuncDef) :
    Option (Context × IRFuncDef) :=
  match scanBlocks ctx (lookupEntryPoints attrMap f.id) f.blocks with
  | none => none
  | some ctx' => some (ctx', removeMarkers f)

/-- The child loop of `processModule`: non-function children are skipped,
functions are processed in module order, each one finishing (markers
removed) before the next starts. -/
def processChildren (ctx : Context) (attrMap : AttributionMap)
    (children : List ModuleChild) : Option (Context × List ModuleChild) :=
  match children with
  | [] => some (ctx, [])
  | ModuleChild.funcInst f :: rest =>
    match processFunc ctx attrMap f with
    | none => none
    | some (ctx', f') =>
      match processChildren ctx' attrMap rest with
      | none => none
      | some (ctx'', rest') => some (ctx'', ModuleChild.funcInst f' :: rest')
  | ModuleChild.otherChild :: rest =>
    match processChildren ctx attrMap rest with
    | none => none
    | some (ctx', rest') => some (ctx', ModuleChild.otherChild :: rest')

/-- The observable outcome of one pass run: returned status, sink
transcript, resulting module, and the two instrumentation counters. -/
structure PassResult where
  status : SlangResult
  diagnostics : List Diagnostic
  module : IRModule
  checkerInvocations : Nat
  markersScanned : Nat
deriving DecidableEq

/-- `processLateRequireCapabilityInsts`: build the fresh context
(`m_status = SLANG_OK`, empty sink transcript), take the attribution map as
input (its builder is external), process the module's children, and return
the final status alongside the mutated module and transcript. -/
def processLateRequireCapabilityInsts (targetCaps : CapabilitySet)
    (restrictive : Bool) (profileName : String) (attrMap : AttributionMap)
    (m : IRModule) : Option PassResult :=
  let ctx : Context :=
    { targetCaps := targetCaps
      restrictiveCapabilityCheck := restrictive
      profileName := profileName
      status := SlangResult.ok
      diagnostics := []
      checkerInvocations := 0
      markersScanned := 0 }
  match processChildren ctx attrMap m.children with
  | none => none
  | some (ctx', children') =>
    some { status := ctx'.status
           diagnostics := ctx'.diagnostics
           module := ⟨children'⟩
           checkerInvocations := ctx'.checkerInvocations
           markersScanned := ctx'.markersScanned }

/-- Number of markers in an instruction list. -/
def instsMarkerCount (insts : List Inst) : Nat :=
  (insts.filter Inst.isLateRequireCapability).length

/-- Number of markers in a function. -/
def IRFuncDef.markerCount (f : IRFuncDef) : Nat :=
  (f.blocks.map fun b => instsMarkerCount b.ordinaryInsts).sum

/-- Number of markers in a module child. -/
def ModuleChild.markerCount : ModuleChild → Nat
  | ModuleChild.funcInst f => f.markerCount
  | ModuleChild.otherChild => 0

/-- Number of markers in a module. -/
def IRModule.markerCount (m : IRModule) : Nat :=
  (m.children.map ModuleChild.markerCount).sum

/-- Whether a marker's operand is really an `IRCapabilitySet` instruction. -/
def markerOperandWf : Inst → Bool
  | Inst.lateRequireCapability m => (asCapabilitySet m.capabilitySetOperand).isSome
  | Inst.other => true

/-- Well-formedness of a function: every marker's capability-set operand is
an `IRCapabilitySet` instruction. -/
def IRFuncDef.wf (f : IRFuncDef) : Bool :=
  f.blocks.all fun b => b.ordinaryInsts.all markerOperandWf

/-- Well-formedness of a module child. -/
def ModuleChild.wf : ModuleChild → Bool
  | ModuleChild.funcInst f => f.wf
  | ModuleChild.otherChild => true

/-- Well-formedness of a module. -/
def IRModule.wf (m : IRModule) : Bool :=
  m.children.all ModuleChild.wf

/-- Number of entry points the attribution map assigns to a function. -/
def attributedCount (attrMap : AttributionMap) (funcId : Nat) : Nat :=
  ((lookupEntryPoints attrMap funcId).getD []).length

/-- Number of attributed entry points that still carry their entry-point
decoration. -/
def decoratedAttributedCount (attrMap : AttributionMap) (funcId : Nat) : Nat :=
  (((lookupEntryPoints attrMap funcId).getD []).filter fun e =>
    e.entryPointDecoration.isSome).length

/-- Spec-side prediction of checker invocations for one module child. -/
def specChildInvocations (attrMap : AttributionMap) : ModuleChild → Nat
  | ModuleChild.funcInst f => f.markerCount * attributedCount attrMap f.id
  | ModuleChild.otherChild => 0

/-- Spec-side prediction of checker invocations: sum over markers of the
attributed-entry-point count. -/
def specCheckerInvocations (attrMap : AttributionMap) (m : IRModule) : Nat :=
  (m.children.map (specChildInvocations attrMap)).sum

/-- Code-side prediction of checker invocations for one module child. -/
def decoratedChildInvocations (attrMap : AttributionMap) : ModuleChild → Nat
  | ModuleChild.funcInst f => f.markerCount * decoratedAttributedCount attrMap f.id
  | ModuleChild.otherChild => 0

/-- Code-side prediction of checker invocations: sum over markers of the
count of attributed entry points still carrying the entry-point
decoration. -/
def decoratedCheckerInvocations (attrMap : AttributionMap) (m : IRModule) : Nat :=
  (m.children.map (decoratedChildInvocations attrMap)).sum

/-- The missing-atom diff computed by the checker on the deficiency path:
primary alternative of the stage-joined required set minus primary
alternative of the stage-joined target set (empty when either primary
alternative is absent). -/
def checkMissing (ctx : Context) (p : Profile) (c : IRCapabilitySetInst) :
    CapabilityAtomSet :=
  match (ctx.targetCaps.join p.capabilityName).getAtomSets with
  | some stageCapSet =>
    match ((c.caps).join p.capabilityName).getAtomSets with
    | some requiredSet => CapabilityAtomSet.calcSubtract requiredSet stageCapSet
    | none => ∅
  | none => ∅

/-- The diagnostics one checker invocation appends: none when the effective
target implies the requirement, the primary/secondary pair otherwise. -/
def checkDiags (ctx : Context) (e : IRFunc) (p : Profile) (c : IRCapabilitySetInst) :
    List Diagnostic :=
  if (ctx.targetCaps.join p.capabilityName).atLeastOneSetImpliedInOther c.caps =
      ImpliesReturnFlags.Implied then
    []
  else
    [Diagnostic.profileImplicitlyUpgraded e.id ctx.profileName (checkMissing ctx p c)
       ctx.restrictiveCapabilityCheck,
     Diagnostic.seeCallOfFunc c.sourceLoc "__requireCapability()"]

/-- Full characterization of one checker invocation on a non-null capability
set: the invocation counter is bumped, the diagnostics of `checkDiags` are
appended, and the status becomes failure exactly when the restrictive option
is on and a diagnostic was emitted; nothing else changes. -/
theorem checkCapability_some_eq (ctx : Context) (e : IRFunc) (p : Profile)
    (c : IRCapabilitySetInst) :
    checkCapability ctx e p (some c) =
      some { ctx with
        checkerInvocations := ctx.checkerInvocations + 1
        diagnostics := ctx.diagnostics ++ checkDiags ctx e p c
        status :=
          if ctx.restrictiveCapabilityCheck = true ∧ checkDiags ctx e p c ≠ [] then
            SlangResult.fail
          else ctx.status } := by
  by_cases h : (ctx.targetCaps.join p.capabilityName).atLeastOneSetImpliedInOther c.caps =
      ImpliesReturnFlags.Implied
  · simp [checkCapability, checkDiags, h]
  · by_cases hr : ctx.restrictiveCapabilityCheck = true
    · simp [checkCapability, checkDiags, checkMissing, h, hr]
    · simp [checkCapability, checkDiags, checkMissing, h, hr]

/-- Null capability-set pointer: the checker dereferences it and the run is
undefined. -/
theorem checkCapability_none_eq (ctx : Context) (e : IRFunc) (p : Profile) :
    checkCapability ctx e p none = none := rfl

/-- How one context evolves into another across any fragment of the run:
target caps, the restrictive flag and the profile name are untouched;
the diagnostics transcript only grows; and the status turns to failure
exactly when the restrictive option is on and the fragment emitted at least
one diagnostic (otherwise it is carried through unchanged). -/
def Evolves (ctx ctx' : Context) : Prop :=
  ctx'.targetCaps = ctx.targetCaps ∧
  ctx'.restrictiveCapabilityCheck = ctx.restrictiveCapabilityCheck ∧
  ctx'.profileName = ctx.profileName ∧
  ∃ ds, ctx'.diagnostics = ctx.diagnostics ++ ds ∧
    ctx'.status =
      if ctx.restrictiveCapabilityCheck = true ∧ ds ≠ [] then SlangResult.fail
      else ctx.status

theorem evolves_refl (ctx : Context) : Evolves ctx ctx :=
  ⟨rfl, rfl, rfl, [], by simp, by simp⟩

theorem evolves_trans {a b c : Context} (h1 : Evolves a b) (h2 : Evolves b c) :
    Evolves a c := by
  obtain ⟨ht1, hr1, hp1, ds1, hd1, hs1⟩ := h1
  obtain ⟨ht2, hr2, hp2, ds2, hd2, hs2⟩ := h2
  refine ⟨ht2.trans ht1, hr2.trans hr1, hp2.trans hp1, ds1 ++ ds2, ?_, ?_⟩
  · rw [hd2, hd1, List.append_assoc]
  · rw [hs2, hr1, hs1]
    by_cases hra : a.restrictiveCapabilityCheck = true
    · by_cases h2e : ds2 = []
      · subst h2e; simp [hra]
      · simp [hra, h2e]
    · simp [hra]

/-- One successful checker invocation evolves the context, leaves the
marker counter alone, and bumps the invocation counter by one. -/
theorem checkCapability_evolves {ctx ctx' : Context} {e : IRFunc} {p : Profile}
    {cs : Option IRCapabilitySetInst} (h : checkCapability ctx e p cs = some ctx') :
    Evolves ctx ctx' ∧ ctx'.markersScanned = ctx.markersScanned ∧
      ctx'.checkerInvocations = ctx.checkerInvocations + 1 := by
  cases cs with
  | none => exact absurd h (by simp [checkCapability_none_eq])
  | some c =>
    rw [checkCapability_some_eq] at h
    injection h with h
    subst h
    exact ⟨⟨rfl, rfl, rfl, checkDiags ctx e p c, rfl, rfl⟩, rfl, rfl⟩

/-- The entry-point loop evolves the context and never touches the marker
counter. -/
theorem checkEntryPoints_evolves : ∀ (eps : List IRFunc) (ctx ctx' : Context)
    (op : IRInst), checkEntryPoints ctx eps op = some ctx' →
    Evolves ctx ctx' ∧ ctx'.markersScanned = ctx.markersScanned
  | [], ctx, ctx', op, h => by
    simp only [checkEntryPoints] at h
    injection h with h
    subst h
    exact ⟨evolves_refl ctx, rfl⟩
  | e :: rest, ctx, ctx', op, h => by
    simp only [checkEntryPoints] at h
    cases hd : e.entryPointDecoration with
    | some profile =>
      rw [hd] at h
      dsimp only at h
      cases hc : checkCapability ctx e profile (asCapabilitySet op) with
      | none => rw [hc] at h; exact absurd h (by simp)
      | some ctx1 =>
        rw [hc] at h
        obtain ⟨hx, hm, _⟩ := checkCapability_evolves hc
        obtain ⟨hx', hm'⟩ := checkEntryPoints_evolves rest ctx1 ctx' op h
        exact ⟨evolves_trans hx hx', hm'.trans hm⟩
    | none =>
      rw [hd] at h
      dsimp only at h
      exact checkEntryPoints_evolves rest ctx ctx' op h

/-- With a genuine `IRCapabilitySet` operand the entry-point loop always
completes (no null dereference). -/
theorem checkEntryPoints_isSome : ∀ (eps : List IRFunc) (ctx : Context)
    (c : IRCapabilitySetInst),
    (checkEntryPoints ctx eps (IRInst.capabilitySet c)).isSome = true
  | [], ctx, c => rfl
  | e :: rest, ctx, c => by
    simp only [checkEntryPoints]
    cases hd : e.entryPointDecoration with
    | some profile =>
      dsimp only [asCapabilitySet]
      rw [checkCapability_some_eq]
      exact checkEntryPoints_isSome rest _ c
    | none =>
      dsimp only
      exact checkEntryPoints_isSome rest ctx c

/-- With a genuine `IRCapabilitySet` operand the entry-point loop performs
exactly one checker invocation per attributed entry point that still
carries its entry-point decoration. -/
theorem checkEntryPoints_invocations : ∀ (eps : List IRFunc) (ctx ctx' : Context)
    (c : IRCapabilitySetInst),
    checkEntryPoints ctx eps (IRInst.capabilitySet c) = some ctx' →
    ctx'.checkerInvocations = ctx.checkerInvocations +
      (eps.filter fun e => e.entryPointDecoration.isSome).length
  | [], ctx, ctx', c, h => by
    simp only [checkEntryPoints] at h
    injection h with h
    subst h
    simp
  | e :: rest, ctx, ctx', c, h => by
    simp only [checkEntryPoints] at h
    cases hd : e.entryPointDecoration with
    | some profile =>
      rw [hd] at h
      dsimp only [asCapabilitySet] at h
      rw [checkCapability_some_eq] at h
      dsimp only at h
      have hrec := checkEntryPoints_invocations rest _ ctx' c h
      rw [hrec]
      simp [List.filter, hd]
      omega
    | none =>
      rw [hd] at h
      dsimp only at h
      have hrec := checkEntryPoints_invocations rest ctx ctx' c h
      rw [hrec]
      simp [List.filter, hd]

/-- Entry points that lost their entry-point decoration are skipped
entirely: the loop behaves as if they were filtered out of the attributed
set. -/
theorem checkEntryPoints_filter_eq : ∀ (eps : List IRFunc) (ctx : Context)
    (op : IRInst),
    checkEntryPoints ctx eps op =
      checkEntryPoints ctx (eps.filter fun e => e.entryPointDecoration.isSome) op
  | [], ctx, op => rfl
  | e :: rest, ctx, op => by
    cases hd : e.entryPointDecoration with
    | some profile =>
      have hf : (e.entryPointDecoration.isSome) = true := by rw [hd]; rfl
      simp only [checkEntryPoints, hd, List.filter, hf]
      cases hc : checkCapability ctx e profile (asCapabilitySet op) with
      | none => rfl
      | some ctx1 => exact checkEntryPoints_filter_eq rest ctx1 op
    | none =>
      have hf : (e.entryPointDecoration.isSome) = false := by rw [hd]; rfl
      simp only [checkEntryPoints, hd, List.filter, hf]
      exact checkEntryPoints_filter_eq rest ctx op

theorem instsMarkerCount_nil : instsMarkerCount [] = 0 := rfl

theorem instsMarkerCount_marker (m : IRLateRequireCapabilityInst) (rest : List Inst) :
    instsMarkerCount (Inst.lateRequireCapability m :: rest) = instsMarkerCount rest + 1 := by
  simp [instsMarkerCount, Inst.isLateRequireCapability]

theorem instsMarkerCount_other (rest : List Inst) :
    instsMarkerCount (Inst.other :: rest) = instsMarkerCount rest := by
  simp [instsMarkerCount, Inst.isLateRequireCapability]

/-- Number of attributed entry points carrying their decoration, for one
attribution lookup result. -/
def attrDecorated (attr : Option (List IRFunc)) : Nat :=
  ((attr.getD []).filter fun e => e.entryPointDecoration.isSome).length

/-- The instruction scan evolves the context and counts every marker it
passes exactly once. -/
theorem scanInsts_evolves : ∀ (insts : List Inst) (ctx ctx' : Context)
    (attr : Option (List IRFunc)), scanInsts ctx attr insts = some ctx' →
    Evolves ctx ctx' ∧ ctx'.markersScanned = ctx.markersScanned + instsMarkerCount insts
  | [], ctx, ctx', attr, h => by
    simp only [scanInsts] at h
    injection h with h
    subst h
    exact ⟨evolves_refl ctx, by simp [instsMarkerCount_nil]⟩
  | Inst.lateRequireCapability m :: rest, ctx, ctx', attr, h => by
    simp only [scanInsts] at h
    have hbump : Evolves ctx { ctx with markersScanned := ctx.markersScanned + 1 } :=
      ⟨rfl, rfl, rfl, [], by simp, by simp⟩
    cases attr with
    | some eps =>
      dsimp only at h
      cases hc : checkEntryPoints { ctx with markersScanned := ctx.markersScanned + 1 }
          eps m.capabilitySetOperand with
      | none => rw [hc] at h; exact absurd h (by simp)
      | some ctx1 =>
        rw [hc] at h
        obtain ⟨hx1, hm1⟩ := checkEntryPoints_evolves eps _ ctx1 m.capabilitySetOperand hc
        obtain ⟨hx2, hm2⟩ := scanInsts_evolves rest ctx1 ctx' (some eps) h
        refine ⟨evolves_trans (evolves_trans hbump hx1) hx2, ?_⟩
        rw [hm2, hm1, instsMarkerCount_marker]
        dsimp only
        omega
    | none =>
      dsimp only at h
      obtain ⟨hx2, hm2⟩ := scanInsts_evolves rest _ ctx' none h
      refine ⟨evolves_trans hbump hx2, ?_⟩
      rw [hm2, instsMarkerCount_marker]
      dsimp only
      omega
  | Inst.other :: rest, ctx, ctx', attr, h => by
    simp only [scanInsts] at h
    rw [instsMarkerCount_other]
    exact scanInsts_evolves rest ctx ctx' attr h

/-- When every marker in the list has a genuine `IRCapabilitySet` operand,
the scan completes. -/
theorem scanInsts_isSome : ∀ (insts : List Inst) (ctx : Context)
    (attr : Option (List IRFunc)), insts.all markerOperandWf = true →
    (scanInsts ctx attr insts).isSome = true
  | [], ctx, attr, _ => rfl
  | Inst.lateRequireCapability m :: rest, ctx, attr, hwf => by
    rw [List.all_cons] at hwf
    obtain ⟨hw, hwrest⟩ := Bool.and_eq_true_iff.mp hwf
    simp only [scanInsts]
    cases attr with
    | some eps =>
      dsimp only
      cases hop : m.capabilitySetOperand with
      | capabilitySet c =>
        cases hc : checkEntryPoints { ctx with markersScanned := ctx.markersScanned + 1 }
            eps (IRInst.capabilitySet c) with
        | none =>
          have := checkEntryPoints_isSome eps
            { ctx with markersScanned := ctx.markersScanned + 1 } c
          rw [hc] at this
          exact absurd this (by simp)
        | some ctx1 =>
          dsimp only
          exact scanInsts_isSome rest ctx1 (some eps) hwrest
      | otherInst =>
        exact absurd hw (by simp [markerOperandWf, hop, asCapabilitySet])
    | none =>
      dsimp only
      exact scanInsts_isSome rest _ none hwrest
  | Inst.other :: rest, ctx, attr, hwf => by
    rw [List.all_cons] at hwf
    obtain ⟨_, hwrest⟩ := Bool.and_eq_true_iff.mp hwf
    simp only [scanInsts]
    exact scanInsts_isSome rest ctx attr hwrest

/-- When every marker is well formed, the scan performs exactly
`markers * decorated-attributed-entry-points` checker invocations. -/
theorem scanInsts_invocations : ∀ (insts : List Inst) (ctx ctx' : Context)
    (attr : Option (List IRFunc)), insts.all markerOperandWf = true →
    scanInsts ctx attr insts = some ctx' →
    ctx'.checkerInvocations =
      ctx.checkerInvocations + instsMarkerCount insts * attrDecorated attr
  | [], ctx, ctx', attr, _, h => by
    simp only [scanInsts] at h
    injection h with h
    subst h
    simp [instsMarkerCount_nil]
  | Inst.lateRequireCapability m :: rest, ctx, ctx', attr, hwf, h => by
    rw [List.all_cons] at hwf
    obtain ⟨hw, hwrest⟩ := Bool.and_eq_true_iff.mp hwf
    simp only [scanInsts] at h
    cases attr with
    | some eps =>
      dsimp only at h
      cases hop : m.capabilitySetOperand with
      | capabilitySet c =>
        rw [hop] at h
        cases hc : checkEntryPoints { ctx with markersScanned := ctx.markersScanned + 1 }
            eps (IRInst.capabilitySet c) with
        | none => rw [hc] at h; exact absurd h (by simp)
        | some ctx1 =>
          rw [hc] at h
          have hi1 := checkEntryPoints_invocations eps _ ctx1 c hc
          have hi2 := scanInsts_invocations rest ctx1 ctx' (some eps) hwrest h
          rw [hi2, hi1, instsMarkerCount_marker]
          dsimp only
          rw [Nat.succ_mul]
          have hd : attrDecorated (some eps) =
              (eps.filter fun e => e.entryPointDecoration.isSome).length := rfl
          rw [hd]
          omega
      | otherInst =>
        exact absurd hw (by simp [markerOperandWf, hop, asCapabilitySet])
    | none =>
      dsimp only at h
      have hi2 := scanInsts_invocations rest _ ctx' none hwrest h
      rw [hi2, instsMarkerCount_marker]
      simp [attrDecorated]
  | Inst.other :: rest, ctx, ctx', attr, hwf, h => by
    rw [List.all_cons] at hwf
    obtain ⟨_, hwrest⟩ := Bool.and_eq_true_iff.mp hwf
    simp only [scanInsts] at h
    rw [instsMarkerCount_other]
    exact scanInsts_invocations rest ctx ctx' attr hwrest h

/-- With no attribution entry (or an empty one), the scan only counts the
markers: no checker invocation, no diagnostic, no status change. -/
theorem scanInsts_orphan : ∀ (insts : List Inst) (ctx : Context)
    (attr : Option (List IRFunc)), (attr = none ∨ attr = some []) →
    scanInsts ctx attr insts =
      some { ctx with markersScanned := ctx.markersScanned + instsMarkerCount insts }
  | [], ctx, attr, _ => by simp [scanInsts, instsMarkerCount_nil]
  | Inst.lateRequireCapability m :: rest, ctx, attr, horph => by
    have hrec := scanInsts_orphan rest
      { ctx with markersScanned := ctx.markersScanned + 1 } attr horph
    have hmk : ctx.markersScanned + 1 + instsMarkerCount rest =
        ctx.markersScanned + instsMarkerCount (Inst.lateRequireCapability m :: rest) := by
      rw [instsMarkerCount_marker]; omega
    cases horph with
    | inl hnone =>
      subst hnone
      simp only [scanInsts]
      rw [hrec]
      dsimp only
      rw [hmk]
    | inr hempty =>
      subst hempty
      simp only [scanInsts, checkEntryPoints]
      rw [hrec]
      dsimp only
      rw [hmk]
  | Inst.other :: rest, ctx, attr, horph => by
    simp only [scanInsts]
    rw [scanInsts_orphan rest ctx attr horph, instsMarkerCount_other]

/-- A marker-free instruction list scans to the unchanged context. -/
theorem scanInsts_noMarkers : ∀ (insts : List Inst) (ctx : Context)
    (attr : Option (List IRFunc)), instsMarkerCount insts = 0 →
    scanInsts ctx attr insts = some ctx
  | [], ctx, attr, _ => rfl
  | Inst.lateRequireCapability m :: rest, ctx, attr, h0 => by
    rw [instsMarkerCount_marker] at h0
    exact absurd h0 (by omega)
  | Inst.other :: rest, ctx, attr, h0 => by
    rw [instsMarkerCount_other] at h0
    simp only [scanInsts]
    exact scanInsts_noMarkers rest ctx attr h0

/-- Marker count of a block list. -/
def blocksMarkerCount (blocks : List IRBlock) : Nat :=
  (blocks.map fun b => instsMarkerCount b.ordinaryInsts).sum

theorem markerCount_eq_blocks (f : IRFuncDef) :
    f.markerCount = blocksMarkerCount f.blocks := rfl

theorem scanBlocks_evolves : ∀ (blocks : List IRBlock) (ctx ctx' : Context)
    (attr : Option (List IRFunc)), scanBlocks ctx attr blocks = some ctx' →
    Evolves ctx ctx' ∧ ctx'.markersScanned = ctx.markersScanned + blocksMarkerCount blocks
  | [], ctx, ctx', attr, h => by
    simp only [scanBlocks] at h
    injection h with h
    subst h
    exact ⟨evolves_refl ctx, by simp [blocksMarkerCount]⟩
  | b :: rest, ctx, ctx', attr, h => by
    simp only [scanBlocks] at h
    cases hs : scanInsts ctx attr b.ordinaryInsts with
    | none => rw [hs] at h; exact absurd h (by simp)
    | some ctx1 =>
      rw [hs] at h
      obtain ⟨hx1, hm1⟩ := scanInsts_evolves b.ordinaryInsts ctx ctx1 attr hs
      obtain ⟨hx2, hm2⟩ := scanBlocks_evolves rest ctx1 ctx' attr h
      refine ⟨evolves_trans hx1 hx2, ?_⟩
      rw [hm2, hm1]
      simp only [blocksMarkerCount, List.map_cons, List.sum_cons]
      omega

theorem scanBlocks_isSome : ∀ (blocks : List IRBlock) (ctx : Context)
    (attr : Option (List IRFunc)),
    (blocks.all fun b => b.ordinaryInsts.all markerOperandWf) = true →
    (scanBlocks ctx attr blocks).isSome = true
  | [], ctx, attr, _ => rfl
  | b :: rest, ctx, attr, hwf => by
    rw [List.all_cons] at hwf
    obtain ⟨hw, hwrest⟩ := Bool.and_eq_true_iff.mp hwf
    simp only [scanBlocks]
    cases hs : scanInsts ctx attr b.ordinaryInsts with
    | none =>
      have := scanInsts_isSome b.ordinaryInsts ctx attr hw
      rw [hs] at this
      exact absurd this (by simp)
    | some ctx1 =>
      dsimp only
      exact scanBlocks_isSome rest ctx1 attr hwrest

theorem scanBlocks_invocations : ∀ (blocks : List IRBlock) (ctx ctx' : Context)
    (attr : Option (List IRFunc)),
    (blocks.all fun b => b.ordinaryInsts.all markerOperandWf) = true →
    scanBlocks ctx attr blocks = some ctx' →
    ctx'.checkerInvocations =
      ctx.checkerInvocations + blocksMarkerCount blocks * attrDecorated attr
  | [], ctx, ctx', attr, _, h => by
    simp only [scanBlocks] at h
    injection h with h
    subst h
    simp [blocksMarkerCount]
  | b :: rest, ctx, ctx', attr, hwf, h => by
    rw [List.all_cons] at hwf
    obtain ⟨hw, hwrest⟩ := Bool.and_eq_true_iff.mp hwf
    simp only [scanBlocks] at h
    cases hs : scanInsts ctx attr b.ordinaryInsts with
    | none => rw [hs] at h; exact absurd h (by simp)
    | some ctx1 =>
      rw [hs] at h
      have hi1 := scanInsts_invocations b.ordinaryInsts ctx ctx1 attr hw hs
      have hi2 := scanBlocks_invocations rest ctx1 ctx' attr hwrest h
      rw [hi2, hi1]
      simp only [blocksMarkerCount, List.map_cons, List.sum_cons, Nat.add_mul]
      omega

theorem scanBlocks_orphan : ∀ (blocks : List IRBlock) (ctx : Context)
    (attr : Option (List IRFunc)), (attr = none ∨ attr = some []) →
    scanBlocks ctx attr blocks =
      some { ctx with markersScanned := ctx.markersScanned + blocksMarkerCount blocks }
  | [], ctx, attr, _ => by simp [scanBlocks, blocksMarkerCount]
  | b :: rest, ctx, attr, horph => by
    simp only [scanBlocks]
    rw [scanInsts_orphan b.ordinaryInsts ctx attr horph]
    dsimp only
    rw [scanBlocks_orphan rest _ attr horph]
    dsimp only
    have : ctx.markersScanned + instsMarkerCount b.ordinaryInsts + blocksMarkerCount rest =
        ctx.markersScanned + blocksMarkerCount (b :: rest) := by
      simp only [blocksMarkerCount, List.map_cons, List.sum_cons]
      omega
    rw [this]

theorem scanBlocks_noMarkers : ∀ (blocks : List IRBlock) (ctx : Context)
    (attr : Option (List IRFunc)), blocksMarkerCount blocks = 0 →
    scanBlocks ctx attr blocks = some ctx
  | [], ctx, attr, _ => rfl
  | b :: rest, ctx, attr, h0 => by
    simp only [blocksMarkerCount, List.map_cons, List.sum_cons] at h0
    simp only [scanBlocks]
    rw [scanInsts_noMarkers b.ordinaryInsts ctx attr (by omega)]
    dsimp only
    exact scanBlocks_noMarkers rest ctx attr (by simp [blocksMarkerCount]; omega)

theorem map_self_of_mem {α : Type} (g : α → α) :
    ∀ (l : List α), (∀ a ∈ l, g a = a) → l.map g = l
  | [], _ => rfl
  | a :: rest, h => by
    simp only [List.map_cons]
    rw [h a (by simp), map_self_of_mem g rest fun x hx => h x (by simp [hx])]

/-- Marker removal leaves no marker behind. -/
theorem removeMarkers_markerCount (f : IRFuncDef) :
    (removeMarkers f).markerCount = 0 := by
  simp only [removeMarkers, markerCount_eq_blocks, blocksMarkerCount, List.map_map]
  rw [List.sum_eq_zero]
  intro x hx
  simp only [List.mem_map] at hx
  obtain ⟨b, _, hb⟩ := hx
  subst hb
  simp [instsMarkerCount, List.filter_filter]

/-- Marker removal on a marker-free function is the identity. -/
theorem removeMarkers_id (f : IRFuncDef) (h0 : f.markerCount = 0) :
    removeMarkers f = f := by
  rw [markerCount_eq_blocks, blocksMarkerCount] at h0
  have hall : ∀ b ∈ f.blocks, instsMarkerCount b.ordinaryInsts = 0 := by
    intro b hb
    have := List.sum_eq_zero_iff.mp h0
    exact this _ (List.mem_map.mpr ⟨b, hb, rfl⟩)
  have hblocks : (f.blocks.map fun b =>
      { b with ordinaryInsts := b.ordinaryInsts.filter fun i =>
          ! i.isLateRequireCapability }) = f.blocks := by
    apply map_self_of_mem
    intro b hb
    have hcnt := hall b hb
    simp only [instsMarkerCount] at hcnt
    rw [List.length_eq_zero] at hcnt
    have hfilter : b.ordinaryInsts.filter (fun i => ! i.isLateRequireCapability) =
        b.ordinaryInsts := by
      apply List.filter_eq_self.mpr
      intro a ha
      have : a.isLateRequireCapability = false := by
        by_contra hcon
        have hmem : a ∈ b.ordinaryInsts.filter Inst.isLateRequireCapability :=
          List.mem_filter.mpr ⟨ha, by revert hcon; cases a.isLateRequireCapability <;> simp⟩
        rw [hcnt] at hmem
        exact absurd hmem (by simp)
      simp [this]
    cases b
    simp only [IRBlock.mk.injEq]
    exact hfilter
  simp only [removeMarkers]
  rw [hblocks]

theorem decoratedAttributedCount_eq (attrMap : AttributionMap) (funcId : Nat) :
    decoratedAttributedCount attrMap funcId =
      attrDecorated (lookupEntryPoints attrMap funcId) := rfl

/-- Shape of a successful `processFunc`: the context comes from the block
scan and the returned function is the marker-free one. -/
theorem processFunc_shape {ctx ctx' : Context} {attrMap : AttributionMap}
    {f f' : IRFuncDef} (h : processFunc ctx attrMap f = some (ctx', f')) :
    f' = removeMarkers f ∧
      scanBlocks ctx (lookupEntryPoints attrMap f.id) f.blocks = some ctx' := by
  simp only [processFunc] at h
  cases hs : scanBlocks ctx (lookupEntryPoints attrMap f.id) f.blocks with
  | none => rw [hs] at h; exact absurd h (by simp)
  | some ctx1 =>
    rw [hs] at h
    dsimp only at h
    injection h with h
    injection h with h1 h2
    exact ⟨h2.symm, by rw [h1]⟩

theorem processFunc_evolves {ctx ctx' : Context} {attrMap : AttributionMap}
    {f f' : IRFuncDef} (h : processFunc ctx attrMap f = some (ctx', f')) :
    Evolves ctx ctx' ∧ ctx'.markersScanned = ctx.markersScanned + f.markerCount := by
  obtain ⟨-, hs⟩ := processFunc_shape h
  rw [markerCount_eq_blocks]
  exact scanBlocks_evolves f.blocks ctx ctx' _ hs

theorem processFunc_isSome (ctx : Context) (attrMap : AttributionMap)
    (f : IRFuncDef) (hwf : f.wf = true) :
    (processFunc ctx attrMap f).isSome = true := by
  simp only [processFunc]
  cases hs : scanBlocks ctx (lookupEntryPoints attrMap f.id) f.blocks with
  | none =>
    have := scanBlocks_isSome f.blocks ctx (lookupEntryPoints attrMap f.id) hwf
    rw [hs] at this
    exact absurd this (by simp)
  | some ctx1 => rfl

theorem processFunc_invocations {ctx ctx' : Context} {attrMap : AttributionMap}
    {f f' : IRFuncDef} (hwf : f.wf = true)
    (h : processFunc ctx attrMap f = some (ctx', f')) :
    ctx'.checkerInvocations =
      ctx.checkerInvocations + f.markerCount * decoratedAttributedCount attrMap f.id := by
  obtain ⟨-, hs⟩ := processFunc_shape h
  rw [markerCount_eq_blocks, decoratedAttributedCount_eq]
  exact scanBlocks_invocations f.blocks ctx ctx' _ hwf hs

/-- Orphaned function: with no attribution entry (or an empty one),
`processFunc` removes the markers, counts them, and leaves everything else
— diagnostics, status, target caps, invocation counter — untouched. -/
theorem processFunc_orphan (ctx : Context) (attrMap : AttributionMap)
    (f : IRFuncDef)
    (horph : lookupEntryPoints attrMap f.id = none ∨
      lookupEntryPoints attrMap f.id = some []) :
    processFunc ctx attrMap f =
      some ({ ctx with markersScanned := ctx.markersScanned + f.markerCount },
        removeMarkers f) := by
  simp only [processFunc]
  rw [scanBlocks_orphan f.blocks ctx _ horph, markerCount_eq_blocks]

theorem processFunc_noMarkers (ctx : Context) (attrMap : AttributionMap)
    (f : IRFuncDef) (h0 : f.markerCount = 0) :
    processFunc ctx attrMap f = some (ctx, f) := by
  simp only [processFunc]
  rw [scanBlocks_noMarkers f.blocks ctx _ (by rw [← markerCount_eq_blocks]; exact h0)]
  dsimp only
  rw [removeMarkers_id f h0]

/-- What the pass leaves of one module child. -/
def consumeChild : ModuleChild → ModuleChild
  | ModuleChild.funcInst f => ModuleChild.funcInst (removeMarkers f)
  | ModuleChild.otherChild => ModuleChild.otherChild

/-- Marker count of a child list. -/
def childrenMarkerCount (children : List ModuleChild) : Nat :=
  (children.map ModuleChild.markerCount).sum

theorem markerCount_eq_children (m : IRModule) :
    m.markerCount = childrenMarkerCount m.children := rfl

theorem processChildren_shape : ∀ (children : List ModuleChild)
    (ctx ctx' : Context) (attrMap : AttributionMap) (children' : List ModuleChild),
    processChildren ctx attrMap children = some (ctx', children') →
    children' = children.map consumeChild
  | [], ctx, ctx', attrMap, children', h => by
    simp only [processChildren] at h
    injection h with h
    injection h with h1 h2
    rw [← h2]
    rfl
  | ModuleChild.funcInst f :: rest, ctx, ctx', attrMap, children', h => by
    simp only [processChildren] at h
    cases hp : processFunc ctx attrMap f with
    | none => rw [hp] at h; exact absurd h (by simp)
    | some p =>
      rw [hp] at h
      obtain ⟨ctx1, f'⟩ := p
      dsimp only at h
      cases hrest : processChildren ctx1 attrMap rest with
      | none => rw [hrest] at h; exact absurd h (by simp)
      | some q =>
        rw [hrest] at h
        obtain ⟨ctx2, rest'⟩ := q
        dsimp only at h
        injection h with h
        injection h with h1 h2
        obtain ⟨hf', -⟩ := processFunc_shape hp
        rw [← h2, List.map_cons, consumeChild, hf',
          processChildren_shape rest ctx1 ctx2 attrMap rest' hrest]
  | ModuleChild.otherChild :: rest, ctx, ctx', attrMap, children', h => by
    simp only [processChildren] at h
    cases hrest : processChildren ctx attrMap rest with
    | none => rw [hrest] at h; exact absurd h (by simp)
    | some q =>
      rw [hrest] at h
      obtain ⟨ctx2, rest'⟩ := q
      dsimp only at h
      injection h with h
      injection h with h1 h2
      rw [← h2, List.map_cons, consumeChild,
        processChildren_shape rest ctx ctx2 attrMap rest' hrest]

theorem processChildren_evolves : ∀ (children : List ModuleChild)
    (ctx ctx' : Context) (attrMap : AttributionMap) (children' : List ModuleChild),
    processChildren ctx attrMap children = some (ctx', children') →
    Evolves ctx ctx' ∧
      ctx'.markersScanned = ctx.markersScanned + childrenMarkerCount children
  | [], ctx, ctx', attrMap, children', h => by
    simp only [processChildren] at h
    injection h with h
    injection h with h1 h2
    rw [← h1]
    exact ⟨evolves_refl ctx, by simp [childrenMarkerCount]⟩
  | ModuleChild.funcInst f :: rest, ctx, ctx', attrMap, children', h => by
    simp only [processChildren] at h
    cases hp : processFunc ctx attrMap f with
    | none => rw [hp] at h; exact absurd h (by simp)
    | some p =>
      rw [hp] at h
      obtain ⟨ctx1, f'⟩ := p
      dsimp only at h
      cases hrest : processChildren ctx1 attrMap rest with
      | none => rw [hrest] at h; exact absurd h (by simp)
      | some q =>
        rw [hrest] at h
        obtain ⟨ctx2, rest'⟩ := q
        dsimp only at h
        injection h with h
        injection h with h1 h2
        obtain ⟨hx1, hm1⟩ := processFunc_evolves hp
        obtain ⟨hx2, hm2⟩ :=
          processChildren_evolves rest ctx1 ctx2 attrMap rest' hrest
        rw [← h1]
        refine ⟨evolves_trans hx1 hx2, ?_⟩
        rw [hm2, hm1]
        simp only [childrenMarkerCount, List.map_cons, List.sum_cons,
          ModuleChild.markerCount]
        omega
  | ModuleChild.otherChild :: rest, ctx, ctx', attrMap, children', h => by
    simp only [processChildren] at h
    cases hrest : processChildren ctx attrMap rest with
    | none => rw [hrest] at h; exact absurd h (by simp)
    | some q =>
      rw [hrest] at h
      obtain ⟨ctx2, rest'⟩ := q
      dsimp only at h
      injection h with h
      injection h with h1 h2
      obtain ⟨hx2, hm2⟩ := processChildren_evolves rest ctx ctx2 attrMap rest' hrest
      rw [← h1]
      refine ⟨hx2, ?_⟩
      rw [hm2]
      simp [childrenMarkerCount, ModuleChild.markerCount]

theorem processChildren_isSome : ∀ (children : List ModuleChild) (ctx : Context)
    (attrMap : AttributionMap), children.all ModuleChild.wf = true →
    (processChildren ctx attrMap children).isSome = true
  | [], ctx, attrMap, _ => rfl
  | ModuleChild.funcInst f :: rest, ctx, attrMap, hwf => by
    rw [List.all_cons] at hwf
    obtain ⟨hw, hwrest⟩ := Bool.and_eq_true_iff.mp hwf
    simp only [processChildren]
    cases hp : processFunc ctx attrMap f with
    | none =>
      have := processFunc_isSome ctx attrMap f hw
      rw [hp] at this
      exact absurd this (by simp)
    | some p =>
      obtain ⟨ctx1, f'⟩ := p
      dsimp only
      cases hrest : processChildren ctx1 attrMap rest with
      | none =>
        have := processChildren_isSome rest ctx1 attrMap hwrest
        rw [hrest] at this
        exact absurd this (by simp)
      | some q => rfl
  | ModuleChild.otherChild :: rest, ctx, attrMap, hwf => by
    rw [List.all_cons] at hwf
    obtain ⟨-, hwrest⟩ := Bool.and_eq_true_iff.mp hwf
    simp only [processChildren]
    cases hrest : processChildren ctx attrMap rest with
    | none =>
      have := processChildren_isSome rest ctx attrMap hwrest
      rw [hrest] at this
      exact absurd this (by simp)
    | some q => rfl

theorem processChildren_invocations : ∀ (children : List ModuleChild)
    (ctx ctx' : Context) (attrMap : AttributionMap) (children' : List ModuleChild),
    children.all ModuleChild.wf = true →
    processChildren ctx attrMap children = some (ctx', children') →
    ctx'.checkerInvocations = ctx.checkerInvocations +
      (children.map (decoratedChildInvocations attrMap)).sum
  | [], ctx, ctx', attrMap, children', _, h => by
    simp only [processChildren] at h
    injection h with h
    injection h with h1 h2
    rw [← h1]
    simp
  | ModuleChild.funcInst f :: rest, ctx, ctx', attrMap, children', hwf, h => by
    rw [List.all_cons] at hwf
    obtain ⟨hw, hwrest⟩ := Bool.and_eq_true_iff.mp hwf
    simp only [processChildren] at h
    cases hp : processFunc ctx attrMap f with
    | none => rw [hp] at h; exact absurd h (by simp)
    | some p =>
      rw [hp] at h
      obtain ⟨ctx1, f'⟩ := p
      dsimp only at h
      cases hrest : processChildren ctx1 attrMap rest with
      | none => rw [hrest] at h; exact absurd h (by simp)
      | some q =>
        rw [hrest] at h
        obtain ⟨ctx2, rest'⟩ := q
        dsimp only at h
        injection h with h
        injection h with h1 h2
        have hi1 := processFunc_invocations hw hp
        have hi2 :=
          processChildren_invocations rest ctx1 ctx2 attrMap rest' hwrest hrest
        rw [← h1, hi2, hi1]
        simp only [List.map_cons, List.sum_cons, decoratedChildInvocations]
        omega
  | ModuleChild.otherChild :: rest, ctx, ctx', attrMap, children', hwf, h => by
    rw [List.all_cons] at hwf
    obtain ⟨-, hwrest⟩ := Bool.and_eq_true_iff.mp hwf
    simp only [processChildren] at h
    cases hrest : processChildren ctx attrMap rest with
    | none => rw [hrest] at h; exact absurd h (by simp)
    | some q =>
      rw [hrest] at h
      obtain ⟨ctx2, rest'⟩ := q
      dsimp only at h
      injection h with h
      injection h with h1 h2
      have hi2 := processChildren_invocations rest ctx ctx2 attrMap rest' hwrest hrest
      rw [← h1, hi2]
      simp [decoratedChildInvocations]

/-- Processing a marker-free child list is the identity on the context and
the children. -/
theorem processChildren_noMarkers : ∀ (children : List ModuleChild) (ctx : Context)
    (attrMap : AttributionMap), childrenMarkerCount children = 0 →
    processChildren ctx attrMap children = some (ctx, children)
  | [], ctx, attrMap, _ => rfl
  | ModuleChild.funcInst f :: rest, ctx, attrMap, h0 => by
    simp only [childrenMarkerCount, List.map_cons, List.sum_cons,
      ModuleChild.markerCount] at h0
    simp only [processChildren]
    rw [processFunc_noMarkers ctx attrMap f (by omega)]
    dsimp only
    rw [processChildren_noMarkers rest ctx attrMap (by simp [childrenMarkerCount]; omega)]
  | ModuleChild.otherChild :: rest, ctx, attrMap, h0 => by
    simp only [childrenMarkerCount, List.map_cons, List.sum_cons,
      ModuleChild.markerCount] at h0
    simp only [processChildren]
    rw [processChildren_noMarkers rest ctx attrMap (by simp [childrenMarkerCount]; omega)]

/-- After consumption, no child holds a marker. -/
theorem childrenMarkerCount_consume : ∀ (children : List ModuleChild),
    childrenMarkerCount (children.map consumeChild) = 0
  | [] => rfl
  | ModuleChild.funcInst f :: rest => by
    simp only [List.map_cons, childrenMarkerCount, List.sum_cons, consumeChild,
      ModuleChild.markerCount]
    rw [removeMarkers_markerCount]
    have := childrenMarkerCount_consume rest
    simp only [childrenMarkerCount] at this
    omega
  | ModuleChild.otherChild :: rest => by
    simp only [List.map_cons, childrenMarkerCount, List.sum_cons, consumeChild,
      ModuleChild.markerCount]
    have := childrenMarkerCount_consume rest
    simp only [childrenMarkerCount] at this
    omega

theorem evolves_sticky {a b : Context} (h : Evolves a b)
    (hf : a.status = SlangResult.fail) : b.status = SlangResult.fail := by
  obtain ⟨-, -, -, ds, -, hs⟩ := h
  rw [hs, hf]
  by_cases hc : a.restrictiveCapabilityCheck = true ∧ ds ≠ [] <;> simp [hc]

/-- Everything one successful run guarantees: the returned module is the
input with every marker consumed, the scan visited every marker exactly
once, and the status is failure exactly when the restrictive flag is on and
at least one diagnostic was emitted. -/
theorem pass_run {tc : CapabilitySet} {r : Bool} {pn : String}
    {attrMap : AttributionMap} {m : IRModule} {res : PassResult}
    (h : processLateRequireCapabilityInsts tc r pn attrMap m = some res) :
    res.module = ⟨m.children.map consumeChild⟩ ∧
    res.module.markerCount = 0 ∧
    res.markersScanned = m.markerCount ∧
    res.status =
      (if r = true ∧ res.diagnostics ≠ [] then SlangResult.fail else SlangResult.ok) := by
  simp only [processLateRequireCapabilityInsts] at h
  cases hp : processChildren ⟨tc, r, pn, SlangResult.ok, [], 0, 0⟩ attrMap m.children with
  | none => rw [hp] at h; exact absurd h (by simp)
  | some q =>
    rw [hp] at h
    obtain ⟨ctx', children'⟩ := q
    dsimp only at h
    injection h with h
    subst h
    have hshape := processChildren_shape m.children _ ctx' attrMap children' hp
    obtain ⟨hx, hm⟩ := processChildren_evolves m.children _ ctx' attrMap children' hp
    obtain ⟨ht, hr, hpn, ds, hd, hs⟩ := hx
    subst hshape
    refine ⟨rfl, ?_, ?_, ?_⟩
    · rw [markerCount_eq_children]
      exact childrenMarkerCount_consume m.children
    · dsimp only
      rw [hm, markerCount_eq_children]
      dsimp only
      omega
    · dsimp only
      dsimp only at hd
      rw [List.nil_append] at hd
      rw [hs, ← hd]

/-- A well-formed module (every marker operand an `IRCapabilitySet`) is
always processed to completion: no null dereference occurs. -/
theorem pass_isSome (tc : CapabilitySet) (r : Bool) (pn : String)
    (attrMap : AttributionMap) (m : IRModule) (hwf : m.wf = true) :
    (processLateRequireCapabilityInsts tc r pn attrMap m).isSome = true := by
  simp only [processLateRequireCapabilityInsts]
  cases hp : processChildren ⟨tc, r, pn, SlangResult.ok, [], 0, 0⟩ attrMap m.children with
  | none =>
    have := processChildren_isSome m.children
      ⟨tc, r, pn, SlangResult.ok, [], 0, 0⟩ attrMap hwf
    rw [hp] at this
    exact absurd this (by simp)
  | some q =>
    obtain ⟨ctx', children'⟩ := q
    rfl

/-- On a well-formed module the run performs exactly one checker invocation
per (marker, decorated attributed entry point) pair. -/
theorem pass_invocations {tc : CapabilitySet} {r : Bool} {pn : String}
    {attrMap : AttributionMap} {m : IRModule} {res : PassResult} (hwf : m.wf = true)
    (h : processLateRequireCapabilityInsts tc r pn attrMap m = some res) :
    res.checkerInvocations = decoratedCheckerInvocations attrMap m := by
  simp only [processLateRequireCapabilityInsts] at h
  cases hp : processChildren ⟨tc, r, pn, SlangResult.ok, [], 0, 0⟩ attrMap m.children with
  | none => rw [hp] at h; exact absurd h (by simp)
  | some q =>
    rw [hp] at h
    obtain ⟨ctx', children'⟩ := q
    dsimp only at h
    injection h with h
    subst h
    have := processChildren_invocations m.children _ ctx' attrMap children' hwf hp
    dsimp only at this ⊢
    rw [this]
    simp [decoratedCheckerInvocations]

/-- A marker-free run returns the module unchanged with success and no
diagnostics. -/
theorem pass_noMarkers (tc : CapabilitySet) (r : Bool) (pn : String)
    (attrMap : AttributionMap) (m : IRModule) (h0 : m.markerCount = 0) :
    processLateRequireCapabilityInsts tc r pn attrMap m =
      some ⟨SlangResult.ok, [], m, 0, 0⟩ := by
  simp only [processLateRequireCapabilityInsts]
  rw [processChildren_noMarkers m.children ⟨tc, r, pn, SlangResult.ok, [], 0, 0⟩
    attrMap (by rw [← markerCount_eq_children]; exact h0)]

/- Concrete fixtures used by the witnesses and the counterexample. -/

def wCaps : CapabilitySet := ⟨[{1}]⟩

def wStage : Profile := ⟨⟨[(∅ : CapabilityAtomSet)]⟩⟩

def wCapInst : IRCapabilitySetInst := ⟨⟨[{1}]⟩, 5⟩

def wMarker : IRLateRequireCapabilityInst := ⟨IRInst.capabilitySet wCapInst⟩

def wEntry : IRFunc := ⟨1, some wStage⟩

def wEntryBare : IRFunc := ⟨2, none⟩

def wFunc : IRFuncDef := ⟨0, none, [⟨[Inst.lateRequireCapability wMarker, Inst.other]⟩]⟩

def wModule : IRModule := ⟨[ModuleChild.funcInst wFunc, ModuleChild.otherChild]⟩

def wAttrMap : AttributionMap := [(0, [wEntry])]

def wRes : PassResult :=
  ⟨SlangResult.ok, [],
    ⟨[ModuleChild.funcInst ⟨0, none, [⟨[Inst.other]⟩]⟩, ModuleChild.otherChild]⟩, 1, 1⟩

def wCtx0 : Context := ⟨wCaps, false, "p", SlangResult.ok, [], 0, 0⟩

def wFailCtx : Context := ⟨wCaps, true, "p", SlangResult.fail, [], 0, 0⟩

def wFailCtx' : Context := ⟨wCaps, true, "p", SlangResult.fail, [], 1, 0⟩

def w2Ctx' : Context := ⟨wCaps, false, "p", SlangResult.ok, [], 1, 1⟩

def w2Func' : IRFuncDef := ⟨0, none, [⟨[Inst.other]⟩]⟩

def w6Ctx' : Context := ⟨wCaps, false, "p", SlangResult.ok, [], 1, 0⟩

def w7Ctx : Context := ⟨⟨[{1}]⟩, false, "p", SlangResult.ok, [], 0, 0⟩

def w7Profile : Profile := ⟨⟨[{2}]⟩⟩

def w7CapInst : IRCapabilitySetInst := ⟨⟨[{7}]⟩, 9⟩

def w7Ctx' : Context :=
  ⟨⟨[{1}]⟩, false, "p", SlangResult.ok,
    [Diagnostic.profileImplicitlyUpgraded 1 "p" ({7} : CapabilityAtomSet) false,
     Diagnostic.seeCallOfFunc 9 "__requireCapability()"], 1, 0⟩

def cexFunc : IRFuncDef := ⟨0, none, [⟨[Inst.lateRequireCapability wMarker]⟩]⟩

def cexModule : IRModule := ⟨[ModuleChild.funcInst cexFunc]⟩

def cexAttrMap : AttributionMap := [(0, [wEntryBare])]

/-- Claim C1: the pass's failure status is sticky and restrictive-only.
The status turns to failure only when a deficiency is diagnosed while the
restrictive option is set (a deficiency is diagnosed iff diagnostics are
emitted, so on a run started from the clean initial state the final status
is success iff not (restrictive and some diagnostic was emitted)); a failed
status is never cleared by a later checker invocation; and the scan runs to
completion regardless (every marker scanned, none left). -/
theorem spec_C1 (tc : CapabilitySet) (r : Bool) (pn : String)
    (attrMap : AttributionMap) (m : IRModule) (res : PassResult) (ctx : Context)
    (e : IRFunc) (p : Profile) (cs : Option IRCapabilitySetInst) (ctx' : Context)
    (hrun : processLateRequireCapabilityInsts tc r pn attrMap m = some res)
    (hchk : checkCapability ctx e p cs = some ctx')
    (hfail : ctx.status = SlangResult.fail) :
    (res.status = SlangResult.ok ↔ ¬(r = true ∧ res.diagnostics ≠ [])) ∧
    res.markersScanned = m.markerCount ∧
    res.module.markerCount = 0 ∧
    ctx'.status = SlangResult.fail := by
  obtain ⟨-, hmc, hms, hst⟩ := pass_run hrun
  refine ⟨?_, hms, hmc, ?_⟩
  · rw [hst]
    by_cases hc : r = true ∧ res.diagnostics ≠ []
    · simp [hc]
    · simp [hc]
  · obtain ⟨hx, -, -⟩ := checkCapability_evolves hchk
    exact evolves_sticky hx hfail

theorem spec_C1_witness :
    processLateRequireCapabilityInsts wCaps false "p" wAttrMap wModule = some wRes ∧
    checkCapability wFailCtx wEntry wStage (some wCapInst) = some wFailCtx' ∧
    wFailCtx.status = SlangResult.fail ∧
    ((wRes.status = SlangResult.ok ↔ ¬((false : Bool) = true ∧ wRes.diagnostics ≠ [])) ∧
      wRes.markersScanned = wModule.markerCount ∧
      wRes.module.markerCount = 0 ∧
      wFailCtx'.status = SlangResult.fail) :=
  ⟨by decide, by decide, by decide,
    spec_C1 wCaps false "p" wAttrMap wModule wRes wFailCtx wEntry wStage
      (some wCapInst) wFailCtx' (by decide) (by decide) (by decide)⟩

/-- Claim C2: every marker is consumed exactly once. After a function's
scan and before the next function is processed, the returned function is
the input with all markers removed (hence marker-free), the per-function
marker counter advances by exactly that function's marker count (each
marker collected once), and after the whole run the module holds zero
markers and the scan counted exactly the module's markers — all regardless
of each marker's check outcome. -/
theorem spec_C2 (tc : CapabilitySet) (r : Bool) (pn : String)
    (attrMap : AttributionMap) (m : IRModule) (res : PassResult)
    (ctx ctx2 : Context) (f f2 : IRFuncDef)
    (hrun : processLateRequireCapabilityInsts tc r pn attrMap m = some res)
    (hpf : processFunc ctx attrMap f = some (ctx2, f2)) :
    res.module.markerCount = 0 ∧
    res.markersScanned = m.markerCount ∧
    f2 = removeMarkers f ∧
    f2.markerCount = 0 ∧
    ctx2.markersScanned = ctx.markersScanned + f.markerCount := by
  obtain ⟨-, hmc, hms, -⟩ := pass_run hrun
  obtain ⟨hf2, -⟩ := processFunc_shape hpf
  obtain ⟨-, hm⟩ := processFunc_evolves hpf
  refine ⟨hmc, hms, hf2, ?_, hm⟩
  rw [hf2]
  exact removeMarkers_markerCount f

theorem spec_C2_witness :
    processLateRequireCapabilityInsts wCaps false "p" wAttrMap wModule = some wRes ∧
    processFunc wCtx0 wAttrMap wFunc = some (w2Ctx', w2Func') ∧
    (wRes.module.markerCount = 0 ∧
      wRes.markersScanned = wModule.markerCount ∧
      w2Func' = removeMarkers wFunc ∧
      w2Func'.markerCount = 0 ∧
      w2Ctx'.markersScanned = wCtx0.markersScanned + wFunc.markerCount) :=
  ⟨by decide, by decide,
    spec_C2 wCaps false "p" wAttrMap wModule wRes wCtx0 w2Ctx' wFunc w2Func'
      (by decide) (by decide)⟩

/-- Claim C3: when the effective target (stored target baseline joined with
the profile's stage capability baseline) implies at least one alternative
of the required set, the checker takes no further action: no diagnostic is
emitted and the status is unchanged (only the instrumentation counter of
invocations moves). -/
theorem spec_C3 (ctx : Context) (e : IRFunc) (p : Profile) (c : IRCapabilitySetInst)
    (h : (ctx.targetCaps.join p.capabilityName).atLeastOneSetImpliedInOther c.caps =
      ImpliesReturnFlags.Implied) :
    checkCapability ctx e p (some c) =
      some { ctx with checkerInvocations := ctx.checkerInvocations + 1 } := by
  rw [checkCapability_some_eq]
  have hd : checkDiags ctx e p c = [] := by simp [checkDiags, h]
  rw [hd]
  simp

theorem spec_C3_witness :
    (wCtx0.targetCaps.join wStage.capabilityName).atLeastOneSetImpliedInOther
        wCapInst.caps = ImpliesReturnFlags.Implied ∧
    checkCapability wCtx0 wEntry wStage (some wCapInst) =
      some { wCtx0 with checkerInvocations := wCtx0.checkerInvocations + 1 } :=
  ⟨by decide, spec_C3 wCtx0 wEntry wStage wCapInst (by decide)⟩

/-- Claim C4: a marker whose owning function has no attribution entry (or
an empty attributed set) is still removed, with zero diagnostics, no
failure recorded, and the status untouched: processing such a function
only advances the marker counter and strips the markers. -/
theorem spec_C4 (ctx : Context) (attrMap : AttributionMap) (f : IRFuncDef)
    (horph : lookupEntryPoints attrMap f.id = none ∨
      lookupEntryPoints attrMap f.id = some []) :
    processFunc ctx attrMap f =
      some ({ ctx with markersScanned := ctx.markersScanned + f.markerCount },
        removeMarkers f) ∧
    (removeMarkers f).markerCount = 0 :=
  ⟨processFunc_orphan ctx attrMap f horph, removeMarkers_markerCount f⟩

theorem spec_C4_witness :
    (lookupEntryPoints ([] : AttributionMap) wFunc.id = none ∨
      lookupEntryPoints ([] : AttributionMap) wFunc.id = some []) ∧
    (processFunc wCtx0 ([] : AttributionMap) wFunc =
      some ({ wCtx0 with markersScanned := wCtx0.markersScanned + wFunc.markerCount },
        removeMarkers wFunc) ∧
    (removeMarkers wFunc).markerCount = 0) :=
  ⟨Or.inl (by decide), spec_C4 wCtx0 ([] : AttributionMap) wFunc (Or.inl (by decide))⟩

/-- Claim C5 (amended): after one run on a well-formed module, zero markers
remain and the number of checker invocations equals the sum over markers of
the count of attributed entry points that still carry their entry-point
decoration at scan time. (The count of all attributed entry points
over-counts when an attributed entry point has lost its decoration; see the
counterexample.) -/
theorem spec_C5 (tc : CapabilitySet) (r : Bool) (pn : String)
    (attrMap : AttributionMap) (m : IRModule) (res : PassResult)
    (hwf : m.wf = true)
    (hrun : processLateRequireCapabilityInsts tc r pn attrMap m = some res) :
    res.module.markerCount = 0 ∧
    res.checkerInvocations = decoratedCheckerInvocations attrMap m :=
  ⟨(pass_run hrun).2.1, pass_invocations hwf hrun⟩

theorem spec_C5_witness :
    cexModule.wf = true ∧
    processLateRequireCapabilityInsts wCaps false "p" cexAttrMap cexModule =
      some ⟨SlangResult.ok, [], ⟨[ModuleChild.funcInst ⟨0, none, [⟨[]⟩]⟩]⟩, 0, 1⟩ ∧
    ((⟨SlangResult.ok, [], ⟨[ModuleChild.funcInst ⟨0, none, [⟨[]⟩]⟩]⟩, 0, 1⟩ :
        PassResult).module.markerCount = 0 ∧
      (⟨SlangResult.ok, [], ⟨[ModuleChild.funcInst ⟨0, none, [⟨[]⟩]⟩]⟩, 0, 1⟩ :
        PassResult).checkerInvocations = decoratedCheckerInvocations cexAttrMap cexModule) :=
  ⟨by decide, by decide,
    spec_C5 wCaps false "p" cexAttrMap cexModule
      ⟨SlangResult.ok, [], ⟨[ModuleChild.funcInst ⟨0, none, [⟨[]⟩]⟩]⟩, 0, 1⟩
      (by decide) (by decide)⟩

/-- Claim C5, counterexample to the literal statement: a module with one
marker whose single attributed entry point has lost its entry-point
decoration. The run completes, but the checker is invoked zero times while
the sum over markers of the attributed-entry-point count is one. -/
theorem spec_C5_counterexample :
    (processLateRequireCapabilityInsts wCaps false "p" cexAttrMap cexModule).isSome =
      true ∧
    (processLateRequireCapabilityInsts wCaps false "p" cexAttrMap
        cexModule).map PassResult.checkerInvocations ≠
      some (specCheckerInvocations cexAttrMap cexModule) := by
  constructor
  · decide
  · decide

/-- Claim C6: for a marker whose operand is a genuine capability set, the
checker runs for exactly the attributed entry points that still carry
their entry-point decoration: the loop is unchanged by filtering out the
undecorated entry points (they are skipped with no diagnostic or status
change), and the invocation count equals the number of decorated attributed
entry points. -/
theorem spec_C6 (ctx : Context) (eps : List IRFunc) (c : IRCapabilitySetInst)
    (ctx' : Context)
    (h : checkEntryPoints ctx eps (IRInst.capabilitySet c) = some ctx') :
    checkEntryPoints ctx eps (IRInst.capabilitySet c) =
      checkEntryPoints ctx (eps.filter fun e => e.entryPointDecoration.isSome)
        (IRInst.capabilitySet c) ∧
    ctx'.checkerInvocations = ctx.checkerInvocations +
      (eps.filter fun e => e.entryPointDecoration.isSome).length :=
  ⟨checkEntryPoints_filter_eq eps ctx (IRInst.capabilitySet c),
    checkEntryPoints_invocations eps ctx ctx' c h⟩

theorem spec_C6_witness :
    checkEntryPoints wCtx0 [wEntry, wEntryBare] (IRInst.capabilitySet wCapInst) =
      some w6Ctx' ∧
    (checkEntryPoints wCtx0 [wEntry, wEntryBare] (IRInst.capabilitySet wCapInst) =
      checkEntryPoints wCtx0
        ([wEntry, wEntryBare].filter fun e => e.entryPointDecoration.isSome)
        (IRInst.capabilitySet wCapInst) ∧
    w6Ctx'.checkerInvocations = wCtx0.checkerInvocations +
      ([wEntry, wEntryBare].filter fun e => e.entryPointDecoration.isSome).length) :=
  ⟨by decide, spec_C6 wCtx0 [wEntry, wEntryBare] wCapInst w6Ctx' (by decide)⟩

/-- Claim C7: on the deficiency path, the missing-atom list carried by the
primary diagnostic equals the set subtraction of the effective target's
primary alternative from the primary alternative of the required set after
the stage capability baseline has been joined into the required set (and
the secondary diagnostic points at the capability set's source location). -/
theorem spec_C7 (ctx : Context) (e : IRFunc) (p : Profile) (c : IRCapabilitySetInst)
    (t req : CapabilityAtomSet) (ctx' : Context)
    (hni : (ctx.targetCaps.join p.capabilityName).atLeastOneSetImpliedInOther c.caps ≠
      ImpliesReturnFlags.Implied)
    (ht : (ctx.targetCaps.join p.capabilityName).getAtomSets = some t)
    (hreq : ((c.caps).join p.capabilityName).getAtomSets = some req)
    (hchk : checkCapability ctx e p (some c) = some ctx') :
    ctx'.diagnostics = ctx.diagnostics ++
      [Diagnostic.profileImplicitlyUpgraded e.id ctx.profileName
        (CapabilityAtomSet.calcSubtract req t) ctx.restrictiveCapabilityCheck,
       Diagnostic.seeCallOfFunc c.sourceLoc "__requireCapability()"] := by
  rw [checkCapability_some_eq] at hchk
  injection hchk with hchk
  subst hchk
  dsimp only
  rw [checkDiags, if_neg hni]
  rw [checkMissing, ht, hreq]

theorem spec_C7_witness :
    (w7Ctx.targetCaps.join w7Profile.capabilityName).atLeastOneSetImpliedInOther
        w7CapInst.caps ≠ ImpliesReturnFlags.Implied ∧
    (w7Ctx.targetCaps.join w7Profile.capabilityName).getAtomSets =
      some ({1, 2} : CapabilityAtomSet) ∧
    (w7CapInst.caps.join w7Profile.capabilityName).getAtomSets =
      some ({7, 2} : CapabilityAtomSet) ∧
    checkCapability w7Ctx wEntry w7Profile (some w7CapInst) = some w7Ctx' ∧
    w7Ctx'.diagnostics = w7Ctx.diagnostics ++
      [Diagnostic.profileImplicitlyUpgraded wEntry.id w7Ctx.profileName
        (CapabilityAtomSet.calcSubtract ({7, 2} : CapabilityAtomSet)
          ({1, 2} : CapabilityAtomSet)) w7Ctx.restrictiveCapabilityCheck,
       Diagnostic.seeCallOfFunc w7CapInst.sourceLoc "__requireCapability()"] :=
  ⟨by decide, by decide, by decide, by decide,
    spec_C7 w7Ctx wEntry w7Profile w7CapInst ({1, 2} : CapabilityAtomSet)
      ({7, 2} : CapabilityAtomSet) w7Ctx' (by decide) (by decide) (by decide)
      (by decide)⟩

/-- Claim C8: the pass is idempotent — running it again on the module a
first run returned (which holds no markers) emits zero diagnostics,
returns success, and leaves the module unchanged. -/
theorem spec_C8 (tc : CapabilitySet) (r : Bool) (pn : String)
    (attrMap : AttributionMap) (m : IRModule) (res : PassResult)
    (hrun : processLateRequireCapabilityInsts tc r pn attrMap m = some res) :
    processLateRequireCapabilityInsts tc r pn attrMap res.module =
      some ⟨SlangResult.ok, [], res.module, 0, 0⟩ :=
  pass_noMarkers tc r pn attrMap res.module (pass_run hrun).2.1

theorem spec_C8_witness :
    processLateRequireCapabilityInsts wCaps false "p" wAttrMap wModule = some wRes ∧
    processLateRequireCapabilityInsts wCaps false "p" wAttrMap wRes.module =
      some ⟨SlangResult.ok, [], wRes.module, 0, 0⟩ :=
  ⟨by decide, spec_C8 wCaps false "p" wAttrMap wModule wRes (by decide)⟩

/-- Claim C9: the checker dereferences the downcast capability-set operand
with no null check (a null operand makes the run undefined), so under the
precondition that every marker's operand is an `IRCapabilitySet`
instruction the null-dereference branch is unreachable and the whole run
completes. -/
theorem spec_C9 (tc : CapabilitySet) (r : Bool) (pn : String)
    (attrMap : AttributionMap) (m : IRModule) (ctx : Context) (e : IRFunc)
    (p : Profile) (hwf : m.wf = true) :
    (processLateRequireCapabilityInsts tc r pn attrMap m).isSome = true ∧
    checkCapability ctx e p none = none :=
  ⟨pass_isSome tc r pn attrMap m hwf, rfl⟩

theorem spec_C9_witness :
    wModule.wf = true ∧
    ((processLateRequireCapabilityInsts wCaps false "p" wAttrMap wModule).isSome =
      true ∧
    checkCapability wCtx0 wEntry wStage none = none) :=
  ⟨by decide, spec_C9 wCaps false "p" wAttrMap wModule wCtx0 wEntry wStage (by decide)⟩

/-- Claim C10: the checker operates on a local copy of the stored target
capability baseline — a successful checker invocation, and likewise a whole
entry-point loop over one marker, leaves the context's target baseline
unchanged, so successive checks all see the original baseline. -/
theorem spec_C10 (ctx : Context) (e : IRFunc) (p : Profile)
    (cs : Option IRCapabilitySetInst) (ctx' : Context) (eps : List IRFunc)
    (op : IRInst) (ctx2 : Context)
    (h1 : checkCapability ctx e p cs = some ctx')
    (h2 : checkEntryPoints ctx eps op = some ctx2) :
    ctx'.targetCaps = ctx.targetCaps ∧ ctx2.targetCaps = ctx.targetCaps :=
  ⟨(checkCapability_evolves h1).1.1, (checkEntryPoints_evolves eps ctx ctx2 op h2).1.1⟩

theorem spec_C10_witness :
    checkCapability wCtx0 wEntry wStage (some wCapInst) = some w6Ctx' ∧
    checkEntryPoints wCtx0 [wEntry] (IRInst.capabilitySet wCapInst) = some w6Ctx' ∧
    (w6Ctx'.targetCaps = wCtx0.targetCaps ∧ w6Ctx'.targetCaps = wCtx0.targetCaps) :=
  ⟨by decide, by decide,
    spec_C10 wCtx0 wEntry wStage (some wCapInst) w6Ctx' [wEntry]
      (IRInst.capabilitySet wCapInst) w6Ctx' (by decide) (by decide)⟩

end Slang
